import Mathlib

/-!
Verification development for the customer-support text-mining pipeline
(src/text_mining.py).  The pipeline is shallowly embedded: Python strings
are modelled as lists of characters (Python strings are sequences of code
points), tokens and stopwords as Lean strings, pandas data frames of the
shape (word, total) as lists of pairs, and the artifact-writing layer as
pure functions that record which artifacts a run produces.  External
collaborators (unicodedata, NLTK, pandas, matplotlib) are modelled at the
granularity the source uses them; each such model carries a doc comment
explaining the modelling choice.
-/

namespace TextMining

/-- Rows of the frequency table: a token together with its count.
Mirrors the two columns (word, total) of the DataFrame built by
count_tokens. -/
abbrev Row := String × Nat

/-! ## Normalizer (normalize_text) -/

/-- Model of one character under Unicode NFKC normalization, the external
unicodedata.normalize("NFKC", _) collaborator (library code, not part of
this repository).  NFKC is the identity on every character that has no
compatibility decomposition; in particular the typographic quotation
characters U+2018, U+2019, U+201C and U+201D have no decomposition and are
untouched, and no compatibility decomposition produces any of them.  The
model is character-wise: identity except for a representative table of
compatibility characters actually rewritten by NFKC (fullwidth apostrophe
U+FF07 and fullwidth quotation mark U+FF02). -/
def nfkcChar (c : Char) : Char :=
  if c = Char.ofNat 0xFF07 then '\'' else
  if c = Char.ofNat 0xFF02 then '"' else c

/-- Model of Python str.replace(old, new) for one-character patterns,
which rewrites every occurrence of the character old to new; for
single-character patterns this is exactly a character-wise map. -/
def pyReplaceChar (old new : Char) (s : List Char) : List Char :=
  s.map (fun c => if c = old then new else c)

/-- Embedding of normalize_text: NFKC normalization followed by the three
replacements of the source (right single quotation mark U+2019 to an ASCII
apostrophe, left and right double quotation marks U+201C / U+201D to an
ASCII double quote). -/
def normalize_text (text : List Char) : List Char :=
  let t1 := text.map nfkcChar
  let t2 := pyReplaceChar '’' '\'' t1
  let t3 := pyReplaceChar '“' '"' t2
  pyReplaceChar '”' '"' t3

/-! ## Tokenizer (tokenize) -/

/-- Character class [a-z0-9] of the tokenizing regular expression. -/
def isAlnum (c : Char) : Bool :=
  (decide ('a' ≤ c) && decide (c ≤ 'z')) || (decide ('0' ≤ c) && decide (c ≤ '9'))

/-- Model of Python str.lower applied character-wise.  It is exact on
ASCII (the only characters the tokenizing regex can match); Unicode
special cases such as U+0130, which lie outside the regex alphabet both
before and after lowering, are modelled as the identity. -/
def pyLower (s : List Char) : List Char := s.map Char.toLower

/-- The token the regex [a-z0-9]+(?:'[a-z0-9]+)? matches greedily at the
start of s when the first character is alphanumeric: the maximal
alphanumeric run, extended by an apostrophe and a second maximal
alphanumeric run when an apostrophe followed by an alphanumeric character
comes directly after the first run. -/
def grabToken (s : List Char) : List Char :=
  match s.dropWhile isAlnum with
  | c :: d :: rest2 =>
    if c = '\'' ∧ isAlnum d then
      s.takeWhile isAlnum ++ '\'' :: (d :: rest2).takeWhile isAlnum
    else s.takeWhile isAlnum
  | _ => s.takeWhile isAlnum

/-- The remainder of s after the token grabToken takes. -/
def grabRest (s : List Char) : List Char :=
  match s.dropWhile isAlnum with
  | c :: d :: rest2 =>
    if c = '\'' ∧ isAlnum d then (d :: rest2).dropWhile isAlnum
    else c :: d :: rest2
  | r => r

/-- Embedding of re.findall applied to the tokenizing regex: scan left to
right; at an alphanumeric character take the greedy match and continue
after it, otherwise skip one character. -/
def tokenize_core (s : List Char) : List (List Char) :=
  match s with
  | [] => []
  | c :: cs =>
    if h : isAlnum c then grabToken (c :: cs) :: tokenize_core (grabRest (c :: cs))
    else tokenize_core cs
termination_by s.length
decreasing_by
  · have hdwlen : ∀ (l : List Char), (l.dropWhile isAlnum).length ≤ l.length := by
      intro l
      induction l with
      | nil => simp
      | cons a l ih =>
        by_cases hpa : isAlnum a
        · rw [List.dropWhile_cons_of_pos hpa]
          exact Nat.le_succ_of_le ih
        · rw [List.dropWhile_cons_of_neg (by simpa using hpa)]
    have hle : (grabRest (c :: cs)).length ≤ ((c :: cs).dropWhile isAlnum).length := by
      unfold grabRest
      rcases hdw2 : (c :: cs).dropWhile isAlnum with _ | ⟨x, rest1⟩
      · simp
      · rcases rest1 with _ | ⟨d, rest2⟩
        · simp
        · by_cases hcond : x = '\'' ∧ isAlnum d
          · simp only [if_pos hcond]
            have := hdwlen (d :: rest2)
            simp only [List.length_cons] at *
            omega
          · simp only [if_neg hcond]
            exact Nat.le_refl _
    have h1 : (c :: cs).dropWhile isAlnum = cs.dropWhile isAlnum :=
      List.dropWhile_cons_of_pos h
    have h3 := hdwlen cs
    rw [h1] at hle
    simp only [List.length_cons]
    omega
  · simp

/-- Embedding of tokenize: lowercase the text, then extract the regex
matches; matches are packaged as Lean strings (Python list[str]). -/
def tokenize (text : List Char) : List String :=
  (tokenize_core (pyLower text)).map (fun cs => String.mk cs)

/-- Spec-side definition, following the spec's words: whether a string
matches the token pattern "one or more alphanumeric characters,
optionally followed by an apostrophe and more alphanumeric characters"
in full. -/
def matchesPat (t : List Char) : Bool :=
  match t.dropWhile isAlnum with
  | [] => decide (t.takeWhile isAlnum ≠ [])
  | c :: b =>
    decide (c = '\'') && decide (t.takeWhile isAlnum ≠ []) &&
      decide (b ≠ []) && b.all isAlnum

/-- Length of the longest prefix of s, of length at most the bound, that
matches the token pattern; 0 when no nonempty prefix matches. -/
def lmlAux (s : List Char) : Nat → Nat
  | 0 => 0
  | n + 1 => if matchesPat (s.take (n + 1)) then n + 1 else lmlAux s n

/-- Length of the longest prefix of s matching the token pattern (0 when
none does). -/
def longestMatchLen (s : List Char) : Nat := lmlAux s s.length

/-- Spec-side definition, following the spec's words: extract, in
left-to-right order and retaining duplicates, the maximal (longest,
leftmost-first) runs matching the token pattern. -/
def maximalRuns (s : List Char) : List (List Char) :=
  match s with
  | [] => []
  | c :: cs =>
    if h : longestMatchLen (c :: cs) = 0 then maximalRuns cs
    else
      (c :: cs).take (longestMatchLen (c :: cs)) ::
        maximalRuns ((c :: cs).drop (longestMatchLen (c :: cs)))
termination_by s.length
decreasing_by
  · simp
  · have hpos : 0 < longestMatchLen (c :: cs) := Nat.pos_of_ne_zero h
    rw [List.length_drop]
    simp only [List.length_cons]
    omega

/-! ## Stopword filter (filter_tokens) -/

/-- Embedding of filter_tokens: keep a token when its length is at least
min_len and it is not in the stopword set (Python: len(t) >= min_len and
t not in sw).  The stopword set is modelled as a list with membership. -/
def filter_tokens (tokens : List String) (sw : List String) (min_len : Nat := 4) :
    List String :=
  tokens.filter (fun t => decide (min_len ≤ t.length ∧ t ∉ sw))

/-! ## Frequency aggregator (count_tokens) -/

/-- First-encounter order of the distinct tokens, modelling the key order
of collections.Counter (a dict subclass; dicts preserve insertion order,
so Counter(tokens).items() lists each distinct token at its first
occurrence position). -/
def encounterOrder : List String → List String
  | [] => []
  | t :: ts => t :: (encounterOrder ts).filter (fun u => decide (u ≠ t))

/-- The (word, total) rows of Counter(tokens).items(), in first-encounter
order, as fed into pd.DataFrame by count_tokens. -/
def counterItems (tokens : List String) : List Row :=
  (encounterOrder tokens).map (fun t => (t, tokens.count t))

/-- Insertion step of the stable descending-by-count sort: the new row is
placed before the first row whose count is less than or equal to its own,
so an earlier row always stays before later rows of equal count. -/
def insertDesc (r : Row) : List Row → List Row
  | [] => [r]
  | x :: xs => if x.2 ≤ r.2 then r :: x :: xs else x :: insertDesc r xs

/-- Model of df.sort_values("total", ascending=False) (the external pandas
collaborator) as a descending insertion sort by count.  The source passes
no kind argument, so pandas uses numpy's default kind="quicksort"
(introsort), which is deterministic but not a stable sort: the relative
order it gives rows of equal count is an implementation detail that this
model fixes in one admissible way.  Every theorem below that goes through
count_tokens therefore relies only on facts that hold for any correct
descending sort, namely that the result is a permutation of the Counter
rows; no tie-order property of this model is used.
reset_index(drop=True) does not change row order. -/
def sortDesc : List Row → List Row
  | [] => []
  | x :: xs => insertDesc x (sortDesc xs)

/-- Embedding of count_tokens: build the Counter rows and sort them by
count descending. -/
def count_tokens (tokens : List String) : List Row :=
  sortDesc (counterItems tokens)

/-! ## Report emitter (save_outputs, write_run_log) and entry point

Path constants.  In the source they are resolved from the location of the
script file at import time; the resolved project root is modelled as a
symbolic string, and pathlib's / operator as string concatenation with a
slash. -/

/-- Resolved project root (PROJECT_ROOT in the source). -/
def PROJECT_ROOT : String := "<project-root>"

/-- DATA_DIR = PROJECT_ROOT / "data". -/
def DATA_DIR : String := PROJECT_ROOT ++ "/data"

/-- OUTPUT_DIR = PROJECT_ROOT / "output". -/
def OUTPUT_DIR : String := PROJECT_ROOT ++ "/output"

/-- DEFAULT_INPUT_FILE constant of the source. -/
def DEFAULT_INPUT_FILE : String := "customer_support_text_corpus.txt"

/-- The resolved expected input path DATA_DIR / DEFAULT_INPUT_FILE. -/
def inputPath : String := DATA_DIR ++ "/" ++ DEFAULT_INPUT_FILE

/-- Boolean row selector of the pandas mask freq_df["total"] >= threshold:
one boolean per row, in row order. -/
def geMask (fd : List Row) (threshold : Int) : List Bool :=
  fd.map (fun r => decide (threshold ≤ (r.2 : Int)))

/-- Model of pandas boolean-mask selection df[mask]: keep the rows whose
mask entry is true, in their original order. -/
def maskFilter (rows : List Row) (mask : List Bool) : List Row :=
  ((rows.zip mask).filter (fun p => p.2)).map (fun p => p.1)

/-- The thresholded table df_ge = freq_df[freq_df["total"] >= threshold]
computed by save_outputs and write_run_log. -/
def df_ge_of (fd : List Row) (threshold : Int) : List Row :=
  maskFilter fd (geMask fd threshold)

/-- Outcome of the chart branch of save_outputs: either a bar chart over
the plotted rows (matplotlib, an external collaborator, modelled by the
row list it is handed) or the plain-text note written instead. -/
inductive ChartResult where
  | chart (rows : List Row)
  | note (msg : String)
deriving DecidableEq

/-- Text of the chart_note.txt fallback written by save_outputs. -/
def chartNoteText (threshold : Int) : String :=
  "No tokens met the threshold of " ++ toString threshold ++
    ", so no chart was generated.\n"

/-- Embedding of the chart branch of save_outputs: plot_df is df_ge capped
at its first 50 rows when longer; a chart is produced when plot_df is
nonempty, otherwise the note text is written to chart_note.txt. -/
def makeChart (ge : List Row) (threshold : Int) : ChartResult :=
  let plot_df := if ge.length > 50 then ge.take 50 else ge
  if plot_df.length > 0 then ChartResult.chart plot_df
  else ChartResult.note (chartNoteText threshold)

/-- The artifact paths save_outputs actually writes, in write order: the
two CSVs, the workbook, the text summary, then either the chart image or
the fallback note, and finally the run log. -/
def artifacts_written (fd : List Row) (threshold : Int) : List String :=
  [OUTPUT_DIR ++ "/token_frequencies_all.csv",
   OUTPUT_DIR ++ "/token_frequencies_ge_" ++ toString threshold ++ ".csv",
   OUTPUT_DIR ++ "/text_mining_results.xlsx",
   OUTPUT_DIR ++ "/summary_top20.txt"]
  ++ (match makeChart (df_ge_of fd threshold) threshold with
      | ChartResult.chart _ =>
          [OUTPUT_DIR ++ "/top_tokens_ge_" ++ toString threshold ++ ".png"]
      | ChartResult.note _ => [OUTPUT_DIR ++ "/chart_note.txt"])
  ++ [OUTPUT_DIR ++ "/run_log.txt"]

/-- Model of the pandas rendering top20.to_string(index=False): header
line then one line per row; the column alignment pandas performs is
abstracted to a single space. -/
def df_to_string (df : List Row) : String :=
  String.intercalate "\n" ("word total" :: df.map (fun r => r.1 ++ " " ++ toString r.2))

/-- The fixed artifact list the run log prints under "Generated outputs:"
(write_run_log lines 150 to 155): it always names the chart image and
never the fallback note. -/
def run_log_manifest (threshold : Int) (output_dir : String) : List String :=
  [output_dir ++ "/token_frequencies_all.csv",
   output_dir ++ "/token_frequencies_ge_" ++ toString threshold ++ ".csv",
   output_dir ++ "/text_mining_results.xlsx",
   output_dir ++ "/summary_top20.txt",
   output_dir ++ "/top_tokens_ge_" ++ toString threshold ++ ".png",
   output_dir ++ "/run_log.txt"]

/-- Embedding of the lines list write_run_log assembles and writes to
run_log.txt.  The wall-clock timestamp datetime.now() is passed in as the
parameter now. -/
def write_run_log_lines (input_path : String) (fd : List Row) (threshold : Int)
    (output_dir : String) (now : String) : List String :=
  ["Customer Support Text Mining - Run Log",
   String.mk (List.replicate 40 '='),
   "Run timestamp: " ++ now,
   "Project root: " ++ PROJECT_ROOT,
   "Input file:    " ++ input_path,
   "",
   "Unique tokens (after filtering): " ++ toString fd.length,
   "Tokens with total >= " ++ toString threshold ++ ": " ++
     toString (df_ge_of fd threshold).length,
   "",
   "Top 20 tokens:",
   df_to_string (fd.take 20),
   "",
   "Generated outputs:"]
  ++ (run_log_manifest threshold output_dir).map (fun p => "- " ++ p)

/-- Error text of the FileNotFoundError raised by main when the input file
is absent. -/
def notFoundMsg : String :=
  "Input file not found: " ++ inputPath ++ "\n" ++
  "Make sure your corpus is located at: " ++ DATA_DIR ++ "/" ++ DEFAULT_INPUT_FILE ++ "\n" ++
  "Current project root is: " ++ PROJECT_ROOT

/-- Observable outcome of one run of main: the directories it creates, the
artifact paths it writes, and the fatal error it raises, if any. -/
structure RunOutcome where
  dirsCreated : List String
  artifacts : List String
  error : Option String
deriving DecidableEq

/-- Embedding of main.  The filesystem state is abstracted to whether the
input file exists and, when it does, its decoded content (read_text with
errors="replace" is total, so the content is an arbitrary string); the
stopword set built by build_stopword_set is passed in, as it comes from
the external NLTK corpus plus the fixed extension list.  main creates the
bootstrap output directory, then aborts with FileNotFoundError when the
input is absent; otherwise it runs the pipeline and writes the artifacts
with threshold 250 and minimum token length 4. -/
def main (inputExists : Bool) (raw : List Char) (sw : List String) : RunOutcome :=
  if inputExists then
    let text := normalize_text raw
    let tokens := filter_tokens (tokenize text) sw 4
    let freq_df := count_tokens tokens
    { dirsCreated := [OUTPUT_DIR]
      artifacts := artifacts_written freq_df 250
      error := none }
  else
    { dirsCreated := [OUTPUT_DIR], artifacts := [], error := some notFoundMsg }

/-! ## General helper lemmas -/

theorem length_dropWhile_le (p : Char → Bool) (l : List Char) :
    (l.dropWhile p).length ≤ l.length := by
  induction l with
  | nil => simp
  | cons a l ih =>
    by_cases h : p a
    · rw [List.dropWhile_cons_of_pos h]
      exact Nat.le_succ_of_le ih
    · rw [List.dropWhile_cons_of_neg (by simpa using h)]

theorem grabToken_append_grabRest (s : List Char) :
    grabToken s ++ grabRest s = s := by
  have hsplit := List.takeWhile_append_dropWhile (p := isAlnum) (l := s)
  unfold grabToken grabRest
  rcases hdw : s.dropWhile isAlnum with _ | ⟨c, rest1⟩
  · rw [hdw] at hsplit; simpa using hsplit
  · rcases rest1 with _ | ⟨d, rest2⟩
    · rw [hdw] at hsplit; simpa using hsplit
    · rw [hdw] at hsplit
      by_cases h : c = '\'' ∧ isAlnum d
      · simp only [if_pos h]
        obtain ⟨hc, _⟩ := h
        subst hc
        calc (s.takeWhile isAlnum ++ '\'' :: (d :: rest2).takeWhile isAlnum)
              ++ (d :: rest2).dropWhile isAlnum
            = s.takeWhile isAlnum ++ '\'' ::
                ((d :: rest2).takeWhile isAlnum ++ (d :: rest2).dropWhile isAlnum) := by
              simp
          _ = s.takeWhile isAlnum ++ '\'' :: (d :: rest2) := by
              rw [List.takeWhile_append_dropWhile]
          _ = s := hsplit
      · simp only [if_neg h]
        exact hsplit

/-! ## C1: thresholded table -/

theorem maskFilter_map_eq_filter (rows : List Row) (p : Row → Bool) :
    maskFilter rows (rows.map p) = rows.filter p := by
  induction rows with
  | nil => rfl
  | cons r rows ih =>
    simp only [maskFilter, List.map_cons, List.zip_cons_cons, List.filter_cons] at ih ⊢
    by_cases h : p r
    · simp only [h, if_pos, List.map_cons]
      rw [ih]
    · simp only [h, Bool.false_eq_true, if_neg, not_false_iff]
      rw [ih]

/-- C1: for every frequency table and every integer threshold, the
thresholded table the report emitter computes is exactly the subsequence
of the full table consisting of the rows whose count is at least the
threshold, in the same relative order. -/
theorem thresholded_is_ordered_subset (fd : List Row) (threshold : Int) :
    df_ge_of fd threshold = fd.filter (fun r => decide (threshold ≤ (r.2 : Int))) ∧
    List.Sublist (df_ge_of fd threshold) fd ∧
    (∀ r : Row, r ∈ df_ge_of fd threshold ↔ r ∈ fd ∧ threshold ≤ (r.2 : Int)) := by
  have he : df_ge_of fd threshold = fd.filter (fun r => decide (threshold ≤ (r.2 : Int))) :=
    maskFilter_map_eq_filter fd _
  refine ⟨he, ?_, ?_⟩
  · rw [he]; exact List.filter_sublist fd
  · intro r
    rw [he]
    simp

/-! ## C6: normalizer -/

/-- The character-wise composition of the four stages of normalize_text. -/
def normChar (c : Char) : Char :=
  let c1 := nfkcChar c
  let c2 := if c1 = '’' then '\'' else c1
  let c3 := if c2 = '“' then '"' else c2
  if c3 = '”' then '"' else c3

theorem normalize_text_eq_map (text : List Char) :
    normalize_text text = text.map normChar := by
  simp only [normalize_text, pyReplaceChar, List.map_map]
  rfl

theorem normChar_not_typographic (c : Char) :
    normChar c ≠ '’' ∧ normChar c ≠ '“' ∧ normChar c ≠ '”' := by
  simp only [normChar, nfkcChar]
  split_ifs <;> refine ⟨?_, ?_, ?_⟩ <;> simp_all

/-- C6 counterexample: the left single quotation mark U+2018 is a
typographic quote character that survives the normalizer unchanged (NFKC
leaves it in place and none of the three replacements touches it), so the
output of normalize_text can still contain a typographic quote. -/
theorem normalizer_counterexample :
    (normalize_text ['‘']).count '‘' = 1 := by decide

/-- C6 amended: normalize_text is total, applies the NFKC model and then
rewrites the right single quotation mark U+2019 and the double quotation
marks U+201C and U+201D to their ASCII equivalents, so none of those
three characters remains in its output; the left single quotation mark
U+2018 is not replaced and may remain. -/
theorem normalizer_amended (text : List Char) :
    (normalize_text text).count '’' = 0 ∧
    (normalize_text text).count '“' = 0 ∧
    (normalize_text text).count '”' = 0 := by
  rw [normalize_text_eq_map]
  refine ⟨?_, ?_, ?_⟩ <;>
    · rw [List.count_eq_zero]
      intro hmem
      rcases List.mem_map.mp hmem with ⟨c, _, hc⟩
      rcases normChar_not_typographic c with ⟨h1, h2, h3⟩
      simp_all

/-! ## C7: chart capping and fallback note -/

theorem makeChart_nonempty {ge : List Row} (thr : Int) (h : ge ≠ []) :
    makeChart ge thr = ChartResult.chart (ge.take 50) := by
  unfold makeChart
  by_cases h50 : ge.length > 50
  · have hlen : (ge.take 50).length > 0 := by
      rw [List.length_take]
      omega
    simp only [h50, if_pos, hlen]
  · have hle : ge.length ≤ 50 := by omega
    have hpos : ge.length > 0 := List.length_pos.mpr h
    rw [if_neg h50, if_pos hpos, List.take_of_length_le hle]

theorem makeChart_empty (thr : Int) :
    makeChart [] thr = ChartResult.note (chartNoteText thr) := rfl

/-- C7: the bar chart covers at most the first 50 rows of the thresholded
subset (exactly its 50-row cap), and when the thresholded subset is empty
the emitter produces the plain-text note artifact instead of a chart. -/
theorem chart_capped_note_fallback (fd : List Row) (threshold : Int) :
    (∀ rows, makeChart (df_ge_of fd threshold) threshold = ChartResult.chart rows →
      rows = (df_ge_of fd threshold).take 50 ∧ rows.length ≤ 50) ∧
    (df_ge_of fd threshold = [] →
      makeChart (df_ge_of fd threshold) threshold
          = ChartResult.note (chartNoteText threshold) ∧
      (OUTPUT_DIR ++ "/chart_note.txt") ∈ artifacts_written fd threshold) := by
  constructor
  · intro rows hrows
    by_cases hne : df_ge_of fd threshold = []
    · rw [hne, makeChart_empty] at hrows
      exact absurd hrows (by simp)
    · rw [makeChart_nonempty threshold hne] at hrows
      have : rows = (df_ge_of fd threshold).take 50 := by
        injection hrows.symm
      refine ⟨this, ?_⟩
      rw [this, List.length_take]
      omega
  · intro hempty
    constructor
    · rw [hempty, makeChart_empty]
    · unfold artifacts_written
      rw [hempty, makeChart_empty]
      simp

theorem chart_capped_note_fallback_witness :
    makeChart (df_ge_of [("help", 1)] 250) 250
        = ChartResult.note (chartNoteText 250) ∧
    (OUTPUT_DIR ++ "/chart_note.txt") ∈ artifacts_written [("help", 1)] 250 ∧
    (∀ rows, makeChart (df_ge_of [("password", 300)] 250) 250 = ChartResult.chart rows →
      rows.length ≤ 50) := by
  refine ⟨?_, ?_, ?_⟩
  · exact ((chart_capped_note_fallback [("help", 1)] 250).2 (by decide)).1
  · exact ((chart_capped_note_fallback [("help", 1)] 250).2 (by decide)).2
  · intro rows hrows
    exact ((chart_capped_note_fallback [("password", 300)] 250).1 rows hrows).2

/-! ## C9: missing input aborts the run -/

set_option maxRecDepth 8000 in
/-- C9: when the input file is absent, the run fails fatally with an error
message containing the resolved expected input path, after creating only
the bootstrap output directory and before writing any artifact. -/
theorem missing_input_fatal (raw : List Char) (sw : List String) :
    (main false raw sw).error = some notFoundMsg ∧
    (∃ pre post, notFoundMsg = pre ++ inputPath ++ post) ∧
    (main false raw sw).artifacts = [] ∧
    (main false raw sw).dirsCreated = [OUTPUT_DIR] := by
  refine ⟨rfl, ⟨"Input file not found: ",
    "\n" ++ "Make sure your corpus is located at: " ++ DATA_DIR ++ "/" ++
      DEFAULT_INPUT_FILE ++ "\n" ++ "Current project root is: " ++ PROJECT_ROOT, ?_⟩,
    rfl, rfl⟩
  decide

/-! ## Counter and stable-sort lemmas -/

theorem mem_encounterOrder {t : String} (l : List String) :
    t ∈ encounterOrder l ↔ t ∈ l := by
  induction l with
  | nil => simp [encounterOrder]
  | cons u ts ih =>
    simp only [encounterOrder, List.mem_cons, List.mem_filter, ih, decide_eq_true_eq]
    by_cases h : t = u
    · simp [h]
    · simp [h]

theorem nodup_encounterOrder (l : List String) : (encounterOrder l).Nodup := by
  induction l with
  | nil => simp [encounterOrder]
  | cons u ts ih =>
    simp only [encounterOrder, List.nodup_cons]
    constructor
    · intro hmem
      have := (List.mem_filter.mp hmem).2
      simp at this
    · exact ih.filter _

theorem sum_split_mem (f : String → Nat) (t : String) :
    ∀ (L : List String), L.Nodup →
      (L.map f).sum = (if t ∈ L then f t else 0)
        + ((L.filter (fun u => decide (u ≠ t))).map f).sum := by
  intro L
  induction L with
  | nil => simp
  | cons u L ih =>
    intro hnd
    rcases List.nodup_cons.mp hnd with ⟨hu, hnd'⟩
    by_cases h : u = t
    · subst h
      have hfil : L.filter (fun x => decide (x ≠ u)) = L :=
        List.filter_eq_self.mpr (by
          intro a ha
          simp only [decide_eq_true_eq]
          intro hau
          exact hu (hau ▸ ha))
      rw [List.map_cons, List.sum_cons, if_pos (List.mem_cons_self u L),
        List.filter_cons, if_neg (by simp), hfil]
    · rw [List.map_cons, List.sum_cons, List.filter_cons,
        if_pos (show decide (u ≠ t) = true by simp [h]), List.map_cons,
        List.sum_cons, ih hnd']
      have hmem : (t ∈ u :: L) ↔ (t ∈ L) := by
        rw [List.mem_cons]
        exact or_iff_right (fun hh => h hh.symm)
      by_cases ht : t ∈ L
      · rw [if_pos ht, if_pos (hmem.mpr ht)]
        omega
      · rw [if_neg ht, if_neg (fun hh => ht (hmem.mp hh))]
        omega

theorem sum_counts_encounter (l : List String) :
    ((encounterOrder l).map (fun t => l.count t)).sum = l.length := by
  induction l with
  | nil => simp [encounterOrder]
  | cons t ts ih =>
    simp only [encounterOrder, List.map_cons, List.sum_cons, List.count_cons_self]
    have hcongr :
        ((encounterOrder ts).filter (fun u => decide (u ≠ t))).map
            (fun u => (t :: ts).count u)
          = ((encounterOrder ts).filter (fun u => decide (u ≠ t))).map
            (fun u => ts.count u) := by
      apply List.map_congr_left
      intro u hu
      have hne : u ≠ t := by
        have := (List.mem_filter.mp hu).2
        simpa using this
      exact List.count_cons_of_ne hne ts
    rw [hcongr]
    have hsplit := sum_split_mem (fun u => ts.count u) t
      (encounterOrder ts) (nodup_encounterOrder ts)
    rw [ih] at hsplit
    have hb : (fun u => ts.count u) t = ts.count t := rfl
    rw [hb] at hsplit
    by_cases ht : t ∈ ts
    · rw [if_pos ((mem_encounterOrder ts).mpr ht)] at hsplit
      simp only [List.length_cons]
      omega
    · rw [if_neg (fun hh => ht ((mem_encounterOrder ts).mp hh))] at hsplit
      have hz : ts.count t = 0 := List.count_eq_zero.mpr ht
      simp only [List.length_cons]
      omega

theorem insertDesc_perm (r : Row) (l : List Row) : List.Perm (insertDesc r l) (r :: l) := by
  induction l with
  | nil => exact List.Perm.refl _
  | cons x xs ih =>
    unfold insertDesc
    by_cases h : x.2 ≤ r.2
    · rw [if_pos h]
    · rw [if_neg h]
      exact List.Perm.trans (ih.cons x) (List.Perm.swap r x xs)

theorem sortDesc_perm (l : List Row) : List.Perm (sortDesc l) l := by
  induction l with
  | nil => exact List.Perm.refl _
  | cons x xs ih =>
    exact List.Perm.trans (insertDesc_perm _ _) (ih.cons x)

theorem row_mem_count_tokens {r : Row} {l : List String} (h : r ∈ count_tokens l) :
    r.1 ∈ l ∧ r.2 = l.count r.1 := by
  have h1 : r ∈ counterItems l := ((sortDesc_perm _).mem_iff).mp h
  rcases List.mem_map.mp h1 with ⟨t, ht, rfl⟩
  exact ⟨(mem_encounterOrder _).mp ht, rfl⟩

/-! ## C2: stopword filter -/

/-- C2: the stopword filter keeps a token exactly when its length is at
least the minimum length and it is not a stopword, preserving relative
order; consequently every token that appears as a row of the frequency
table built from the filtered sequence satisfies both conditions. -/
theorem filter_tokens_spec (tokens sw : List String) (min_len : Nat) :
    List.Sublist (filter_tokens tokens sw min_len) tokens ∧
    (∀ t, t ∈ filter_tokens tokens sw min_len ↔
      t ∈ tokens ∧ (min_len ≤ t.length ∧ t ∉ sw)) ∧
    (∀ r : Row, r ∈ count_tokens (filter_tokens tokens sw min_len) →
      min_len ≤ r.1.length ∧ r.1 ∉ sw) := by
  refine ⟨List.filter_sublist _, ?_, ?_⟩
  · intro t
    simp [filter_tokens]
  · intro r hr
    have hmem : r.1 ∈ filter_tokens tokens sw min_len := (row_mem_count_tokens hr).1
    simp only [filter_tokens, List.mem_filter, decide_eq_true_eq] at hmem
    exact hmem.2

theorem filter_tokens_spec_witness :
    ("password" ∈ filter_tokens ["password", "the"] ["the"] 4 ↔
      ("password" ∈ ["password", "the"] ∧
        (4 ≤ "password".length ∧ "password" ∉ ["the"]))) ∧
    (4 ≤ ("password", 1).1.length ∧ ("password", 1).1 ∉ ["the"]) :=
  ⟨(filter_tokens_spec ["password", "the"] ["the"] 4).2.1 "password",
   (filter_tokens_spec ["password", "the"] ["the"] 4).2.2 ("password", 1) (by decide)⟩

/-! ## C3: counts sum to the number of surviving tokens -/

theorem sum_counts_general (l : List String) :
    ((count_tokens l).map Prod.snd).sum = l.length := by
  unfold count_tokens
  have hperm : List.Perm ((sortDesc (counterItems l)).map Prod.snd)
      ((counterItems l).map Prod.snd) := (sortDesc_perm _).map _
  rw [hperm.sum_eq]
  unfold counterItems
  rw [List.map_map]
  exact sum_counts_encounter l

/-- C3: for every filtered token sequence the counts of the frequency
table sum to the length of that sequence, and the empty sequence yields
the empty table (count_tokens is total). -/
theorem counts_sum_to_filtered_length (tokens sw : List String) (min_len : Nat) :
    ((count_tokens (filter_tokens tokens sw min_len)).map Prod.snd).sum
        = (filter_tokens tokens sw min_len).length ∧
    count_tokens [] = [] :=
  ⟨sum_counts_general _, rfl⟩

/-! ## C10: rows are the occurring tokens, counts positive -/

/-- C10: every row of the frequency table has a count of at least one
(its exact occurrence count), and a token appears as a row exactly when
it occurs in the input sequence. -/
theorem rows_positive_iff_occurs (tokens : List String) :
    (∀ r : Row, r ∈ count_tokens tokens → 1 ≤ r.2 ∧ r.2 = tokens.count r.1) ∧
    (∀ t, (∃ c, (t, c) ∈ count_tokens tokens) ↔ t ∈ tokens) := by
  constructor
  · intro r hr
    rcases row_mem_count_tokens hr with ⟨hmem, hcount⟩
    refine ⟨?_, hcount⟩
    rw [hcount]
    exact List.count_pos_iff.mpr hmem
  · intro t
    constructor
    · rintro ⟨c, hc⟩
      exact (row_mem_count_tokens hc).1
    · intro ht
      refine ⟨tokens.count t, ?_⟩
      have h1 : (t, tokens.count t) ∈ counterItems tokens :=
        List.mem_map.mpr ⟨t, (mem_encounterOrder _).mpr ht, rfl⟩
      exact ((sortDesc_perm _).mem_iff).mpr h1

/-! ## C5: tokenizer lemmas -/

theorem isAlnum_apos : isAlnum '\'' = false := by decide

theorem matchesPat_nil : matchesPat [] = false := rfl

theorem takeWhile_eq_self_of_all {p : Char → Bool} {l : List Char}
    (h : ∀ x ∈ l, p x) : l.takeWhile p = l := by
  induction l with
  | nil => rfl
  | cons a l ih =>
    rw [List.takeWhile_cons_of_pos (h a (List.mem_cons_self a l)),
      ih (fun x hx => h x (List.mem_cons_of_mem a hx))]

theorem dropWhile_eq_nil_of_all {p : Char → Bool} {l : List Char}
    (h : ∀ x ∈ l, p x) : l.dropWhile p = [] := by
  induction l with
  | nil => rfl
  | cons a l ih =>
    rw [List.dropWhile_cons_of_pos (h a (List.mem_cons_self a l))]
    exact ih (fun x hx => h x (List.mem_cons_of_mem a hx))

theorem matchesPat_all_run {a : List Char} (h1 : a ≠ [])
    (h2 : ∀ x ∈ a, isAlnum x) : matchesPat a = true := by
  unfold matchesPat
  rw [dropWhile_eq_nil_of_all h2, takeWhile_eq_self_of_all h2]
  simpa using h1

theorem matchesPat_run_apos_run {a b : List Char} (ha : a ≠ []) (hb : b ≠ [])
    (ha2 : ∀ x ∈ a, isAlnum x) (hb2 : ∀ x ∈ b, isAlnum x) :
    matchesPat (a ++ '\'' :: b) = true := by
  unfold matchesPat
  rw [List.dropWhile_append_of_pos ha2,
    List.dropWhile_cons_of_neg (by simp [isAlnum_apos]),
    List.takeWhile_append_of_pos ha2,
    List.takeWhile_cons_of_neg (by simp [isAlnum_apos]), List.append_nil]
  simp only [Bool.and_eq_true, decide_eq_true_eq, List.all_eq_true]
  refine ⟨⟨⟨?_, ha⟩, hb⟩, hb2⟩
  trivial

theorem takeWhile_length_le_grabToken (s : List Char) :
    (s.takeWhile isAlnum).length ≤ (grabToken s).length := by
  unfold grabToken
  rcases hdw : s.dropWhile isAlnum with _ | ⟨c, rest1⟩
  · exact Nat.le_refl _
  · rcases rest1 with _ | ⟨d, rest2⟩
    · exact Nat.le_refl _
    · simp only []
      by_cases h : c = '\'' ∧ isAlnum d
      · rw [if_pos h]
        rw [List.length_append]
        omega
      · rw [if_neg h]

theorem one_le_grabToken_length {c : Char} (cs : List Char) (h : isAlnum c = true) :
    1 ≤ (grabToken (c :: cs)).length := by
  have h1 := takeWhile_length_le_grabToken (c :: cs)
  rw [List.takeWhile_cons_of_pos h] at h1
  simp only [List.length_cons] at h1
  omega

theorem matchesPat_grabToken {c : Char} (cs : List Char) (h : isAlnum c = true) :
    matchesPat (grabToken (c :: cs)) = true := by
  have hr1ne : (c :: cs).takeWhile isAlnum ≠ [] := by
    rw [List.takeWhile_cons_of_pos h]
    simp
  have hr1all : ∀ x ∈ (c :: cs).takeWhile isAlnum, isAlnum x :=
    fun x hx => List.mem_takeWhile_imp hx
  unfold grabToken
  rcases hdw : (c :: cs).dropWhile isAlnum with _ | ⟨c', rest1⟩
  · exact matchesPat_all_run hr1ne hr1all
  · rcases rest1 with _ | ⟨d, rest2⟩
    · exact matchesPat_all_run hr1ne hr1all
    · simp only []
      by_cases hcond : c' = '\'' ∧ isAlnum d
      · rw [if_pos hcond]
        obtain ⟨rfl, hd⟩ := hcond
        refine matchesPat_run_apos_run hr1ne ?_ hr1all ?_
        · rw [List.takeWhile_cons_of_pos hd]
          simp
        · exact fun x hx => List.mem_takeWhile_imp hx
      · rw [if_neg hcond]
        exact matchesPat_all_run hr1ne hr1all

theorem matchesPat_shape {t : List Char} (h : matchesPat t = true) :
    (t ≠ [] ∧ ∀ x ∈ t, isAlnum x) ∨
    (∃ a b, t = a ++ '\'' :: b ∧ a ≠ [] ∧ b ≠ [] ∧
      (∀ x ∈ a, isAlnum x) ∧ (∀ x ∈ b, isAlnum x)) := by
  have hsplit := List.takeWhile_append_dropWhile (p := isAlnum) (l := t)
  unfold matchesPat at h
  rcases hdw : t.dropWhile isAlnum with _ | ⟨c, b⟩
  · rw [hdw] at h hsplit
    rw [List.append_nil] at hsplit
    left
    refine ⟨?_, ?_⟩
    · intro ht
      subst ht
      simp at h
    · intro x hx
      rw [← hsplit] at hx
      exact List.mem_takeWhile_imp hx
  · rw [hdw] at h hsplit
    simp only [Bool.and_eq_true, decide_eq_true_eq, List.all_eq_true] at h
    obtain ⟨⟨⟨hc, hta⟩, hb⟩, hball⟩ := h
    subst hc
    right
    exact ⟨t.takeWhile isAlnum, b, hsplit.symm, hta, hb,
      fun x hx => List.mem_takeWhile_imp hx, hball⟩

theorem le_grabToken_of_matches {s : List Char} {n : Nat} (hn : n ≤ s.length)
    (h : matchesPat (s.take n) = true) : n ≤ (grabToken s).length := by
  rcases matchesPat_shape h with ⟨hne, hall⟩ | ⟨a, b, heq, ha, hb, ha2, hb2⟩
  · have hlen : (s.take n).length = n := by
      rw [List.length_take]
      omega
    have htw : s.takeWhile isAlnum = s.take n ++ (s.drop n).takeWhile isAlnum := by
      conv_lhs => rw [← List.take_append_drop n s]
      exact List.takeWhile_append_of_pos hall
    have hle : n ≤ (s.takeWhile isAlnum).length := by
      rw [htw, List.length_append, hlen]
      omega
    exact le_trans hle (takeWhile_length_le_grabToken s)
  · rcases b with _ | ⟨d, b'⟩
    · exact absurd rfl hb
    have hd : isAlnum d = true := hb2 d (List.mem_cons_self d b')
    have hs : s = a ++ '\'' :: (d :: (b' ++ s.drop n)) := by
      conv_lhs => rw [← List.take_append_drop n s, heq]
      simp
    have htw : s.takeWhile isAlnum = a := by
      rw [hs, List.takeWhile_append_of_pos ha2,
        List.takeWhile_cons_of_neg (by simp [isAlnum_apos]), List.append_nil]
    have hdw : s.dropWhile isAlnum = '\'' :: (d :: (b' ++ s.drop n)) := by
      conv_lhs => rw [hs]
      rw [List.dropWhile_append_of_pos ha2,
        List.dropWhile_cons_of_neg (by simp [isAlnum_apos])]
    have hlen : n = a.length + 1 + (d :: b').length := by
      have h1 : (s.take n).length = n := by
        rw [List.length_take]
        omega
      rw [heq] at h1
      rw [List.length_append, List.length_cons] at h1
      omega
    have hrun2 : (d :: b').length ≤ ((d :: (b' ++ s.drop n)).takeWhile isAlnum).length := by
      have hdc : d :: (b' ++ s.drop n) = (d :: b') ++ s.drop n := by simp
      rw [hdc, List.takeWhile_append_of_pos hb2, List.length_append]
      omega
    unfold grabToken
    rw [hdw]
    simp only []
    rw [if_pos ⟨by trivial, hd⟩, htw, List.length_append, List.length_cons]
    omega

theorem take_grabToken_length (s : List Char) :
    s.take (grabToken s).length = grabToken s := by
  have happ := grabToken_append_grabRest s
  calc s.take (grabToken s).length
      = (grabToken s ++ grabRest s).take (grabToken s).length := by rw [happ]
    _ = grabToken s := List.take_left _ _

theorem grabRest_eq_drop (s : List Char) :
    grabRest s = s.drop (grabToken s).length := by
  have happ := grabToken_append_grabRest s
  calc grabRest s
      = (grabToken s ++ grabRest s).drop (grabToken s).length :=
        (List.drop_left _ _).symm
    _ = s.drop (grabToken s).length := by rw [happ]

theorem lmlAux_eq_of_max {s : List Char} {m : Nat}
    (hm : matchesPat (s.take m) = true) :
    ∀ bound, m ≤ bound →
      (∀ n, n ≤ bound → matchesPat (s.take n) = true → n ≤ m) →
      lmlAux s bound = m := by
  intro bound
  induction bound with
  | zero =>
    intro hmb _
    have hm0 : m = 0 := Nat.le_zero.mp hmb
    subst hm0
    rw [List.take_zero, matchesPat_nil] at hm
    cases hm
  | succ bound ih =>
    intro hmb hmax
    unfold lmlAux
    by_cases hb : matchesPat (s.take (bound + 1)) = true
    · rw [if_pos hb]
      have h1 := hmax (bound + 1) (Nat.le_refl _) hb
      omega
    · rw [if_neg hb]
      apply ih
      · rcases Nat.lt_or_ge m (bound + 1) with hlt | hge
        · omega
        · exfalso
          have hmeq : m = bound + 1 := by omega
          rw [hmeq] at hm
          exact hb hm
      · intro n hn hmn
        exact hmax n (Nat.le_succ_of_le hn) hmn

theorem matchesPat_take_cons_neg {c : Char} (cs : List Char) (h : isAlnum c = false) :
    ∀ n, matchesPat ((c :: cs).take n) = false := by
  intro n
  cases n with
  | zero =>
    rw [List.take_zero]
    exact matchesPat_nil
  | succ n =>
    rw [List.take_succ_cons]
    unfold matchesPat
    rw [List.dropWhile_cons_of_neg (by simp [h]),
      List.takeWhile_cons_of_neg (by simp [h])]
    simp

theorem lmlAux_eq_zero {s : List Char} (hall : ∀ n, matchesPat (s.take n) = false) :
    ∀ bound, lmlAux s bound = 0 := by
  intro bound
  induction bound with
  | zero => rfl
  | succ bound ih =>
    unfold lmlAux
    rw [if_neg (by simp [hall (bound + 1)])]
    exact ih

theorem longestMatchLen_cons_neg {c : Char} (cs : List Char) (h : isAlnum c = false) :
    longestMatchLen (c :: cs) = 0 :=
  lmlAux_eq_zero (matchesPat_take_cons_neg cs h) _

theorem longestMatchLen_cons_pos {c : Char} (cs : List Char) (h : isAlnum c = true) :
    longestMatchLen (c :: cs) = (grabToken (c :: cs)).length := by
  have happ := grabToken_append_grabRest (c :: cs)
  have hlen : (grabToken (c :: cs)).length ≤ (c :: cs).length := by
    have hcl := congrArg List.length happ
    rw [List.length_append] at hcl
    omega
  unfold longestMatchLen
  apply lmlAux_eq_of_max
  · rw [take_grabToken_length]
    exact matchesPat_grabToken cs h
  · exact hlen
  · intro n hn hmn
    exact le_grabToken_of_matches hn hmn

theorem tokenize_core_eq_maximalRuns (s : List Char) :
    tokenize_core s = maximalRuns s := by
  induction s using tokenize_core.induct with
  | case1 => rw [tokenize_core, maximalRuns]
  | case2 c cs h ih =>
    have htok : tokenize_core (c :: cs)
        = grabToken (c :: cs) :: tokenize_core (grabRest (c :: cs)) := by
      conv_lhs => rw [tokenize_core]
      rw [dif_pos h]
    have hne : ¬ longestMatchLen (c :: cs) = 0 := by
      rw [longestMatchLen_cons_pos cs h]
      have := one_le_grabToken_length cs h
      omega
    have hmax : maximalRuns (c :: cs)
        = (c :: cs).take (longestMatchLen (c :: cs)) ::
          maximalRuns ((c :: cs).drop (longestMatchLen (c :: cs))) := by
      conv_lhs => rw [maximalRuns]
      rw [dif_neg hne]
    rw [htok, hmax, longestMatchLen_cons_pos cs h, take_grabToken_length,
      ← grabRest_eq_drop, ih]
  | case3 c cs h ih =>
    have htok : tokenize_core (c :: cs) = tokenize_core cs := by
      conv_lhs => rw [tokenize_core]
      rw [dif_neg h]
    have hz : longestMatchLen (c :: cs) = 0 :=
      longestMatchLen_cons_neg cs (by simpa using h)
    have hmax : maximalRuns (c :: cs) = maximalRuns cs := by
      conv_lhs => rw [maximalRuns]
      rw [dif_pos hz]
    rw [htok, hmax, ih]

/-- C5: the tokenizer lowercases its input and returns exactly the
left-to-right sequence of maximal runs matching the pattern (one or more
alphanumeric characters, optionally followed by an apostrophe and one or
more alphanumeric characters), retaining duplicates; the empty string
yields the empty sequence. -/
theorem tokenize_eq_maximal_runs (text : List Char) :
    tokenize text = (maximalRuns (pyLower text)).map (fun cs => String.mk cs) ∧
    tokenize [] = [] := by
  constructor
  · unfold tokenize
    rw [tokenize_core_eq_maximalRuns]
  · have h0 : tokenize_core ([] : List Char) = [] := by rw [tokenize_core]
    unfold tokenize
    rw [show pyLower [] = [] from rfl, h0]
    rfl

theorem manifest_eq_artifacts_of_chart (fd : List Row) (thr : Int)
    (h : df_ge_of fd thr ≠ []) :
    run_log_manifest thr OUTPUT_DIR = artifacts_written fd thr := by
  unfold artifacts_written
  rw [makeChart_nonempty thr h]
  rfl

set_option maxRecDepth 16000 in
/-- C8 counterexample: with the frequency table [("help", 1)] and
threshold 250 the run writes the fallback note chart_note.txt and no
chart image, yet the run-log manifest lists the chart image path and not
the note, so the manifest is not the list of artifacts actually
produced by that run. -/
theorem run_log_counterexample :
    (OUTPUT_DIR ++ "/chart_note.txt") ∈ artifacts_written [("help", 1)] 250 ∧
    (OUTPUT_DIR ++ "/chart_note.txt") ∉ run_log_manifest 250 OUTPUT_DIR ∧
    (OUTPUT_DIR ++ "/top_tokens_ge_" ++ toString (250 : Int) ++ ".png")
        ∈ run_log_manifest 250 OUTPUT_DIR ∧
    (OUTPUT_DIR ++ "/top_tokens_ge_" ++ toString (250 : Int) ++ ".png")
        ∉ artifacts_written [("help", 1)] 250 := by
  decide

/-- C8 (amended): the run log records the run timestamp, the resolved
project root, the input file path, the unique-token count, the
thresholded-token count and the top-20 table rendering, followed by a
fixed six-path artifact manifest that always names the chart image and
never the fallback note; the manifest therefore equals the list of
artifacts actually written exactly when the thresholded subset is
nonempty. -/
theorem run_log_contents (ip : String) (fd : List Row) (thr : Int) (now : String) :
    ("Run timestamp: " ++ now) ∈ write_run_log_lines ip fd thr OUTPUT_DIR now ∧
    ("Project root: " ++ PROJECT_ROOT) ∈ write_run_log_lines ip fd thr OUTPUT_DIR now ∧
    ("Input file:    " ++ ip) ∈ write_run_log_lines ip fd thr OUTPUT_DIR now ∧
    ("Unique tokens (after filtering): " ++ toString fd.length)
        ∈ write_run_log_lines ip fd thr OUTPUT_DIR now ∧
    ("Tokens with total >= " ++ toString thr ++ ": " ++
        toString (df_ge_of fd thr).length)
        ∈ write_run_log_lines ip fd thr OUTPUT_DIR now ∧
    df_to_string (fd.take 20) ∈ write_run_log_lines ip fd thr OUTPUT_DIR now ∧
    (∃ pre, write_run_log_lines ip fd thr OUTPUT_DIR now
        = pre ++ (run_log_manifest thr OUTPUT_DIR).map (fun p => "- " ++ p)) ∧
    (df_ge_of fd thr ≠ [] →
      run_log_manifest thr OUTPUT_DIR = artifacts_written fd thr) := by
  refine ⟨?_, ?_, ?_, ?_, ?_, ?_, ⟨_, rfl⟩, manifest_eq_artifacts_of_chart fd thr⟩ <;>
    simp [write_run_log_lines]

set_option maxRecDepth 16000 in
theorem run_log_contents_witness :
    ("Run timestamp: " ++ "2024-01-01 00:00:00")
        ∈ write_run_log_lines inputPath [("password", 300)] 250 OUTPUT_DIR
            "2024-01-01 00:00:00" ∧
    run_log_manifest 250 OUTPUT_DIR = artifacts_written [("password", 300)] 250 :=
  ⟨(run_log_contents inputPath [("password", 300)] 250 "2024-01-01 00:00:00").1,
   (run_log_contents inputPath [("password", 300)] 250
      "2024-01-01 00:00:00").2.2.2.2.2.2.2 (by decide)⟩

theorem rows_positive_iff_occurs_witness :
    (1 ≤ (("password", 2) : Row).2 ∧
      (("password", 2) : Row).2 = ["password", "password"].count "password") ∧
    (∃ c, (("password" : String), c) ∈ count_tokens ["password", "password"]) :=
  ⟨(rows_positive_iff_occurs ["password", "password"]).1 ("password", 2) (by decide),
   ((rows_positive_iff_occurs ["password", "password"]).2 "password").mpr (by decide)⟩

end TextMining
